import Mathlib

/-!
Verification of the text-segmentation core of the Khmer TTS bot
(`src/main.py`).  The only original logic in the repository is the
function `split_text` (lines 126-166); it is embedded here over
`List Char`, mirroring the Python loop step by step.  The language
classifier described by the specification has no implementation under
`src/` and is modelled from the specification's words.
-/

set_option maxHeartbeats 1000000

namespace KhmerTTS

/-- Whitespace predicate modelling Python `str.strip` / `str.isspace`
on the ASCII range (the source never feeds other Unicode whitespace to
the chunker's strip calls). -/
def isSpace (c : Char) : Bool :=
  c = ' ' || c = '\t' || c = '\n' || c = '\r' || c = '\x0b' || c = '\x0c'

/-- Remove leading whitespace, as Python `str.lstrip`. -/
def stripLeft (l : List Char) : List Char := l.dropWhile isSpace

/-- Remove trailing whitespace, as Python `str.rstrip`. -/
def stripRight : List Char → List Char
  | [] => []
  | c :: rest =>
    match stripRight rest with
    | [] => if isSpace c then [] else [c]
    | d :: r => c :: d :: r

/-- Python `str.strip`: remove whitespace from both ends. -/
def strip (l : List Char) : List Char := stripRight (stripLeft l)

/-- The delimiter priority list of `split_text`
(src/main.py line 136): sentence endings tried in this fixed order. -/
def endings : List Char := ['.', '។', '\n', '?', '!', '៕', '៖', 'ៗ', ':', ';']

/-- Helper for `rfind`: scan the `k` indices `start + k - 1, ..., start`
from the top, returning the first (hence largest) index holding `c`. -/
def rfindAux (t : List Char) (c : Char) (start : Nat) : Nat → Option Nat
  | 0 => none
  | k+1 => if t.get? (start + k) = some c then some (start + k) else rfindAux t c start k

/-- Python `text.rfind(c, start, e)` (for `0 ≤ start`, `e ≤ len`): the
largest index `p` with `start ≤ p < e` and `t[p] = c`, if any. -/
def rfind (t : List Char) (c : Char) (start e : Nat) : Option Nat :=
  rfindAux t c start (e - start)

/-- One step of the delimiter search (lines 145-148): accept the found
position only when it lies strictly after `start`, else keep looking. -/
def delimStep (start : Nat) : Option Nat → Option Nat → Option Nat
  | some p, fallback => if start < p then some p else fallback
  | none, fallback => fallback

/-- The delimiter search of `split_text` (lines 144-148): for each ending
in priority order, take the last occurrence in the window `[start, e)`;
accept it (and stop) only when its position is strictly after `start`. -/
def findDelim (t : List Char) (start e : Nat) : List Char → Option Nat
  | [] => none
  | c :: cs => delimStep start (rfind t c start e) (findDelim t start e cs)

/-- The word-boundary fallback (lines 151-154): the last space strictly
after `start`, else the window end `e`. -/
def spaceSplit (start e : Nat) : Option Nat → Nat
  | some sp => if start < sp then sp else e
  | none => e

/-- The delimiter-phase value of `best_split` (lines 142-148): one past
the accepted delimiter, staying at the window end `e` when no delimiter
was accepted. -/
def delimSplit (e : Nat) : Option Nat → Nat
  | some p => p + 1
  | none => e

/-- The split-point choice of one window (lines 141-154).  After the
delimiter loop the code re-checks `if best_split == end:` (line 151);
that condition holds both when no delimiter was accepted and when the
accepted delimiter sits at the window's last position (`split_pos + 1 ==
end`), and in either case the last space strictly after `start`
overrides the delimiter-phase value. -/
def bestSplit (t : List Char) (start e : Nat) : Nat :=
  if delimSplit e (findDelim t start e endings) = e then
    spaceSplit start e (rfind t ' ' start e)
  else delimSplit e (findDelim t start e endings)

/-- `end = min(start + chunk_size, len(text))` (line 139). -/
def windowEnd (t : List Char) (cs start : Nat) : Nat := min (start + cs) t.length

/-- `best_split` after lines 141-156: the delimiter/space search runs only
when the window does not already reach the end of the text. -/
def splitPoint (t : List Char) (cs start : Nat) : Nat :=
  if windowEnd t cs start < t.length then bestSplit t start (windowEnd t cs start)
  else windowEnd t cs start

/-- The update `start = best_split; if start == end: start += 1`
(lines 162-164). -/
def nextStart (t : List Char) (cs start : Nat) : Nat :=
  if splitPoint t cs start = windowEnd t cs start then windowEnd t cs start + 1
  else splitPoint t cs start

/-- Fuel-indexed while-loop of `split_text` (lines 138-164): emit the
stripped window `text[start:best_split]` when non-empty, then continue
from `nextStart`.  Fuel only bounds the iteration count; by
`nextStart` progress, `t.length + 1` fuel always suffices. -/
def splitLoopF : Nat → List Char → Nat → Nat → List (List Char)
  | 0, _, _, _ => []
  | f+1, t, cs, start =>
    if start < t.length then
      if strip ((t.drop start).take (splitPoint t cs start - start)) = [] then
        splitLoopF f t cs (nextStart t cs start)
      else
        strip ((t.drop start).take (splitPoint t cs start - start)) ::
          splitLoopF f t cs (nextStart t cs start)
    else []

/-- The while-loop with enough fuel to run to completion. -/
def splitLoop (t : List Char) (cs start : Nat) : List (List Char) :=
  splitLoopF (t.length + 1 - start) t cs start

/-- `split_text(text, chunk_size)` (src/main.py lines 126-166): strip the
text; if it fits in one chunk return it as a singleton; otherwise run the
windowed delimiter-splitting loop. -/
def split_text (text : List Char) (chunk_size : Nat) : List (List Char) :=
  if (strip text).length ≤ chunk_size then [strip text]
  else splitLoop (strip text) chunk_size 0

/-- Reference description of the loop's behaviour on delimiter-free,
space-free text: cut a window of exactly `cs` characters, skip one
character, repeat; a final piece of at most `cs` characters is kept whole. -/
def hardChunksF : Nat → List Char → Nat → List (List Char)
  | 0, _, _ => []
  | f+1, t, cs =>
    if t = [] then []
    else if t.length ≤ cs then [t]
    else t.take cs :: hardChunksF f (t.drop (cs+1)) cs

/-- `hardChunksF` with enough fuel. -/
def hardChunks (t : List Char) (cs : Nat) : List (List Char) :=
  hardChunksF t.length t cs

/-- Language tags of the specification's data model. -/
inductive LanguageTag
  | khmer
  | other
deriving DecidableEq

/-- Character of the Khmer Unicode block U+1780 to U+17FF. -/
def isKhmerChar (c : Char) : Bool := 0x1780 ≤ c.toNat && c.toNat ≤ 0x17FF

/-- Latin letter (ASCII ranges 65-90 and 97-122). -/
def isLatinLetter (c : Char) : Bool :=
  (65 ≤ c.toNat && c.toNat ≤ 90) || (97 ≤ c.toNat && c.toNat ≤ 122)

/-- Modelled from the spec: the repository source under `src/` contains no
language classifier (only the chunker); the specification's primary
heuristic reads: count characters in the Khmer Unicode block U+1780-U+17FF
versus Latin letters, and tag `khmer` exactly when the Khmer count exceeds
the Latin count, else `other`. -/
def classify (t : List Char) : LanguageTag :=
  if t.countP isLatinLetter < t.countP isKhmerChar then .khmer else .other

example : split_text ['a','b','.','c','d'] 3 = [['a','b','.'], ['d']] := by decide
example : split_text [] 100 = [[]] := by decide
example : split_text ['a','b','c','d','e','f'] 3 = [['a','b','c'], ['e','f']] := by decide
example : split_text ['a','b',':','c','d','e','f'] 4 = [['a','b',':'], ['c','d','e','f']] := by decide
example : split_text ['a','b'] 0 = [] := by decide
example : split_text ['A','.',' ','B','.',' ','C','.'] 5 = [['A','.'], ['B','.'], ['C','.']] := by decide
example : split_text ['a',' ','b','.','c','d','e','f','g'] 4 =
    [['a'], ['b','.'], ['c','d','e','f']] := by decide
example : hardChunks ['a','b','c','d','e','f'] 3 = [['a','b','c'], ['e','f']] := by decide
example : classify ['ក','ខ'] = .khmer := by decide
example : classify ['a','b'] = .other := by decide

/-! ### Facts about stripping -/

theorem stripLeft_length_le (l : List Char) : (stripLeft l).length ≤ l.length := by
  induction l with
  | nil => simp [stripLeft]
  | cons c r ih =>
    simp only [stripLeft, List.dropWhile_cons] at ih ⊢
    split
    · simp only [List.length_cons]; omega
    · simp

theorem stripRight_cons_eq (c : Char) (r : List Char) :
    stripRight (c :: r) =
      match stripRight r with
      | [] => if isSpace c then [] else [c]
      | d :: s => c :: d :: s := rfl

theorem stripRight_length_le (l : List Char) : (stripRight l).length ≤ l.length := by
  induction l with
  | nil => simp [stripRight]
  | cons c r ih =>
    rw [stripRight_cons_eq]
    cases h : stripRight r with
    | nil => by_cases hc : isSpace c <;> simp [hc]
    | cons d s =>
      rw [h] at ih
      simp only [List.length_cons] at ih ⊢
      omega

theorem strip_length_le (l : List Char) : (strip l).length ≤ l.length :=
  le_trans (stripRight_length_le _) (stripLeft_length_le _)

theorem stripRight_sp (l : List Char) (h : stripRight l = []) : ∀ c ∈ l, isSpace c = true := by
  induction l with
  | nil => simp
  | cons c r ih =>
    rw [stripRight_cons_eq] at h
    cases h' : stripRight r with
    | nil =>
      rw [h'] at h
      simp only [] at h
      by_cases hc : isSpace c
      · intro x hx
        rcases List.mem_cons.mp hx with rfl | hx
        · exact hc
        · exact ih h' x hx
      · rw [if_neg hc] at h
        exact absurd h (by simp)
    | cons d s => rw [h'] at h; simp at h

theorem mem_stripLeft (l : List Char) (c : Char) (hc : c ∈ l) (hs : isSpace c = false) :
    c ∈ stripLeft l := by
  induction l with
  | nil => simp at hc
  | cons a r ih =>
    simp only [stripLeft, List.dropWhile_cons]
    rcases List.mem_cons.mp hc with rfl | h
    · rw [hs]; simp
    · split
      · exact ih h
      · exact List.mem_cons_of_mem _ h

theorem strip_ne_nil (l : List Char) (c : Char) (hc : c ∈ l) (hs : isSpace c = false) :
    strip l ≠ [] := by
  intro h
  have hsp := stripRight_sp _ h c (mem_stripLeft l c hc hs)
  rw [hs] at hsp
  exact Bool.noConfusion hsp

theorem dropWhile_head (p : Char → Bool) (l : List Char) (c : Char) (r : List Char)
    (h : l.dropWhile p = c :: r) : p c = false := by
  induction l with
  | nil => simp at h
  | cons a s ih =>
    rw [List.dropWhile_cons] at h
    split at h
    · exact ih h
    · rename_i hpa
      injection h with h1 _
      subst h1
      simpa using hpa

theorem stripRight_head (l : List Char) (c : Char) (r : List Char)
    (h : stripRight l = c :: r) : ∃ s, l = c :: s := by
  cases l with
  | nil => simp [stripRight] at h
  | cons a t =>
    rw [stripRight_cons_eq] at h
    cases h' : stripRight t with
    | nil =>
      rw [h'] at h
      simp only [] at h
      by_cases ha : isSpace a
      · rw [if_pos ha] at h; exact absurd h (by simp)
      · rw [if_neg ha] at h
        injection h with h1 _
        subst h1
        exact ⟨t, rfl⟩
    | cons d s =>
      rw [h'] at h
      injection h with h1 _
      subst h1
      exact ⟨t, rfl⟩

theorem strip_head (l : List Char) (c : Char) (r : List Char)
    (h : strip l = c :: r) : isSpace c = false := by
  obtain ⟨s, hs⟩ := stripRight_head (stripLeft l) c r h
  exact dropWhile_head isSpace l c s hs

theorem stripLeft_of_head (a : Char) (r : List Char) (ha : isSpace a = false) :
    stripLeft (a :: r) = a :: r := by
  simp [stripLeft, List.dropWhile_cons, ha]

theorem stripRight_of_no_space (l : List Char) (h : ∀ c ∈ l, isSpace c = false) :
    stripRight l = l := by
  induction l with
  | nil => simp [stripRight]
  | cons a r ih =>
    have ha : isSpace a = false := h a (by simp)
    have ih' := ih fun c hc => h c (List.mem_cons_of_mem _ hc)
    rw [stripRight_cons_eq, ih']
    cases r with
    | nil => simp [ha]
    | cons d s => rfl

theorem stripLeft_of_no_space (l : List Char) (h : ∀ c ∈ l, isSpace c = false) :
    stripLeft l = l := by
  cases l with
  | nil => rfl
  | cons a r => exact stripLeft_of_head a r (h a (by simp))

theorem strip_of_no_space (l : List Char) (h : ∀ c ∈ l, isSpace c = false) : strip l = l := by
  unfold strip
  rw [stripLeft_of_no_space l h, stripRight_of_no_space l h]

theorem stripRight_idem (l : List Char) : stripRight (stripRight l) = stripRight l := by
  induction l with
  | nil => rfl
  | cons a r ih =>
    cases h : stripRight r with
    | nil =>
      have houter : stripRight (a :: r) = if isSpace a then [] else [a] := by
        rw [stripRight_cons_eq, h]
      rw [houter]
      by_cases ha : isSpace a
      · rw [if_pos ha]; rfl
      · rw [if_neg ha, stripRight_cons_eq]
        show (if isSpace a = true then ([] : List Char) else [a]) = [a]
        rw [if_neg ha]
    | cons d s =>
      rw [h] at ih
      have houter : stripRight (a :: r) = a :: d :: s := by
        rw [stripRight_cons_eq, h]
      rw [houter, stripRight_cons_eq, ih]

theorem strip_idem (l : List Char) : strip (strip l) = strip l := by
  show stripRight (stripLeft (stripRight (stripLeft l))) = stripRight (stripLeft l)
  cases h : stripRight (stripLeft l) with
  | nil => rfl
  | cons c r =>
    have hc : isSpace c = false := strip_head l c r h
    rw [stripLeft_of_head c r hc, ← h]
    exact stripRight_idem _

/-! ### Facts about rfind -/

theorem rfindAux_some (t : List Char) (c : Char) (s : Nat) :
    ∀ k p, rfindAux t c s k = some p → s ≤ p ∧ p < s + k ∧ t.get? p = some c := by
  intro k
  induction k with
  | zero => intro p h; simp [rfindAux] at h
  | succ k ih =>
    intro p h
    simp only [rfindAux] at h
    split at h
    · rename_i hg
      injection h with h1
      subst h1
      exact ⟨Nat.le_add_right s k, by omega, hg⟩
    · obtain ⟨h1, h2, h3⟩ := ih p h
      exact ⟨h1, by omega, h3⟩

theorem rfindAux_eq_none (t : List Char) (c : Char) (s : Nat) :
    ∀ k, (∀ j, s ≤ j → j < s + k → t.get? j ≠ some c) → rfindAux t c s k = none := by
  intro k
  induction k with
  | zero => intro _; rfl
  | succ k ih =>
    intro h
    simp only [rfindAux]
    rw [if_neg (by exact h (s + k) (Nat.le_add_right s k) (by omega))]
    exact ih fun j hj1 hj2 => h j hj1 (by omega)

theorem rfindAux_eq_some (t : List Char) (c : Char) (s : Nat) :
    ∀ k p, s ≤ p → p < s + k → t.get? p = some c →
      (∀ j, p < j → j < s + k → t.get? j ≠ some c) → rfindAux t c s k = some p := by
  intro k
  induction k with
  | zero => intro p h1 h2 h3 h4; omega
  | succ k ih =>
    intro p h1 h2 h3 h4
    simp only [rfindAux]
    by_cases hp : p = s + k
    · subst hp; rw [if_pos h3]
    · rw [if_neg (by exact h4 (s + k) (by omega) (by omega))]
      exact ih p h1 (by omega) h3 fun j hj1 hj2 => h4 j hj1 (by omega)

theorem rfind_some (t : List Char) (c : Char) (s e p : Nat)
    (h : rfind t c s e = some p) : s ≤ p ∧ p < e ∧ t.get? p = some c := by
  obtain ⟨h1, h2, h3⟩ := rfindAux_some t c s (e - s) p h
  exact ⟨h1, by omega, h3⟩

theorem rfind_eq_none (t : List Char) (c : Char) (s e : Nat)
    (h : ∀ j, s ≤ j → j < e → t.get? j ≠ some c) : rfind t c s e = none :=
  rfindAux_eq_none t c s (e - s) fun j hj1 hj2 => h j hj1 (by omega)

theorem rfind_eq_some (t : List Char) (c : Char) (s e p : Nat)
    (h1 : s ≤ p) (h2 : p < e) (h3 : t.get? p = some c)
    (h4 : ∀ j, p < j → j < e → t.get? j ≠ some c) : rfind t c s e = some p :=
  rfindAux_eq_some t c s (e - s) p h1 (by omega) h3 fun j hj1 hj2 => h4 j hj1 (by omega)

/-! ### Facts about the delimiter search and the split point -/

theorem delimStep_some (s p : Nat) (f : Option Nat) :
    delimStep s (some p) f = if s < p then some p else f := rfl

theorem delimStep_none (s : Nat) (f : Option Nat) : delimStep s none f = f := rfl

theorem spaceSplit_some (s e sp : Nat) :
    spaceSplit s e (some sp) = if s < sp then sp else e := rfl

theorem spaceSplit_none (s e : Nat) : spaceSplit s e none = e := rfl

theorem delimSplit_some (e p : Nat) : delimSplit e (some p) = p + 1 := rfl

theorem delimSplit_none (e : Nat) : delimSplit e none = e := rfl

theorem findDelim_cons (t : List Char) (s e : Nat) (c : Char) (cs : List Char) :
    findDelim t s e (c :: cs) = delimStep s (rfind t c s e) (findDelim t s e cs) := rfl

theorem findDelim_some (t : List Char) (s e : Nat) :
    ∀ ds p, findDelim t s e ds = some p → s < p ∧ p < e ∧ ∃ d ∈ ds, t.get? p = some d := by
  intro ds
  induction ds with
  | nil => intro p h; simp [findDelim] at h
  | cons c cs ih =>
    intro p h
    rw [findDelim_cons] at h
    cases hr : rfind t c s e with
    | none =>
      rw [hr, delimStep_none] at h
      obtain ⟨h1, h2, d, hd1, hd2⟩ := ih p h
      exact ⟨h1, h2, d, List.mem_cons_of_mem _ hd1, hd2⟩
    | some q =>
      rw [hr, delimStep_some] at h
      by_cases hq : s < q
      · rw [if_pos hq] at h
        injection h with h1
        subst h1
        obtain ⟨hq1, hq2, hq3⟩ := rfind_some t c s e q hr
        exact ⟨hq, hq2, c, by simp, hq3⟩
      · rw [if_neg hq] at h
        obtain ⟨h1, h2, d, hd1, hd2⟩ := ih p h
        exact ⟨h1, h2, d, List.mem_cons_of_mem _ hd1, hd2⟩

theorem findDelim_eq_none (t : List Char) (s e : Nat) :
    ∀ ds, (∀ j, s < j → j < e → ∀ d, t.get? j = some d → d ∉ ds) →
      findDelim t s e ds = none := by
  intro ds
  induction ds with
  | nil => intro _; rfl
  | cons c cs ih =>
    intro h
    rw [findDelim_cons]
    cases hr : rfind t c s e with
    | none =>
      rw [delimStep_none]
      exact ih fun j hj1 hj2 d hd hmem => h j hj1 hj2 d hd (List.mem_cons_of_mem _ hmem)
    | some q =>
      obtain ⟨hq1, hq2, hq3⟩ := rfind_some t c s e q hr
      have hns : ¬ s < q := fun hlt => h q hlt hq2 c hq3 (by simp)
      rw [delimStep_some, if_neg hns]
      exact ih fun j hj1 hj2 d hd hmem => h j hj1 hj2 d hd (List.mem_cons_of_mem _ hmem)

theorem bestSplit_le (t : List Char) (s e : Nat) : bestSplit t s e ≤ e := by
  unfold bestSplit
  by_cases hd : delimSplit e (findDelim t s e endings) = e
  · rw [if_pos hd]
    cases hr : rfind t ' ' s e with
    | some sp =>
      obtain ⟨_, h2, _⟩ := rfind_some t ' ' s e sp hr
      rw [spaceSplit_some]
      by_cases hc : s < sp
      · rw [if_pos hc]; omega
      · rw [if_neg hc]
    | none => rw [spaceSplit_none]
  · rw [if_neg hd]
    cases hf : findDelim t s e endings with
    | some p =>
      obtain ⟨_, h2, _⟩ := findDelim_some t s e endings p hf
      rw [delimSplit_some]
      omega
    | none =>
      rw [hf, delimSplit_none] at hd
      exact absurd rfl hd

theorem bestSplit_cases (t : List Char) (s e : Nat) :
    bestSplit t s e = e ∨ s < bestSplit t s e := by
  unfold bestSplit
  by_cases hd : delimSplit e (findDelim t s e endings) = e
  · rw [if_pos hd]
    cases hr : rfind t ' ' s e with
    | some sp =>
      rw [spaceSplit_some]
      by_cases hc : s < sp
      · rw [if_pos hc]; right; exact hc
      · rw [if_neg hc]; left; rfl
    | none => rw [spaceSplit_none]; left; rfl
  · rw [if_neg hd]
    cases hf : findDelim t s e endings with
    | some p =>
      obtain ⟨h1, _, _⟩ := findDelim_some t s e endings p hf
      rw [delimSplit_some]
      right; omega
    | none =>
      rw [hf, delimSplit_none] at hd
      exact absurd rfl hd

/-- The first entry of the priority list wins the delimiter search: the
last period strictly inside the window is the accepted delimiter, no
matter what other delimiters occur, even later in the window. -/
theorem findDelim_dot (t : List Char) (s e p : Nat)
    (h1 : s < p) (h2 : p < e) (h3 : t.get? p = some '.')
    (h4 : ∀ j, p < j → j < e → t.get? j ≠ some '.') :
    findDelim t s e endings = some p := by
  have hr : rfind t '.' s e = some p := rfind_eq_some t '.' s e p (by omega) h2 h3 h4
  show findDelim t s e ('.' :: ['។', '\n', '?', '!', '៕', '៖', 'ៗ', ':', ';']) = some p
  rw [findDelim_cons, hr, delimStep_some, if_pos h1]

/-- A period strictly inside the window and not at its last position
fixes the split one past the period: the line-151 re-check does not fire
because `best_split` differs from the window end. -/
theorem bestSplit_dot (t : List Char) (s e p : Nat)
    (h1 : s < p) (h2 : p + 1 < e) (h3 : t.get? p = some '.')
    (h4 : ∀ j, p < j → j < e → t.get? j ≠ some '.') :
    bestSplit t s e = p + 1 := by
  have hf : findDelim t s e endings = some p := findDelim_dot t s e p h1 (by omega) h3 h4
  unfold bestSplit
  rw [hf, delimSplit_some, if_neg (by omega)]

/-- When neither a delimiter nor a space occurs strictly inside the
window, the split position is the window end (a hard cut). -/
theorem bestSplit_forced (t : List Char) (s e : Nat)
    (hnd : ∀ j, s < j → j < e → ∀ d, t.get? j = some d → d ∉ endings)
    (hns : ∀ j, s < j → j < e → t.get? j ≠ some ' ') :
    bestSplit t s e = e := by
  unfold bestSplit
  rw [findDelim_eq_none t s e endings hnd, delimSplit_none, if_pos rfl]
  cases hr : rfind t ' ' s e with
  | none => rw [spaceSplit_none]
  | some sp =>
    obtain ⟨hq1, hq2, hq3⟩ := rfind_some t ' ' s e sp hr
    have hnlt : ¬ s < sp := fun hlt => hns sp hlt hq2 hq3
    rw [spaceSplit_some, if_neg hnlt]

theorem bestSplit_clean (t : List Char) (s e : Nat)
    (hchars : ∀ c ∈ t, isSpace c = false ∧ c ∉ endings) :
    bestSplit t s e = e := by
  apply bestSplit_forced
  · exact fun j _ _ d hd => (hchars d (List.get?_mem hd)).2
  · intro j _ _ hj
    have hsp := (hchars ' ' (List.get?_mem hj)).1
    simp [isSpace] at hsp

/-! ### Window arithmetic and loop progress -/

theorem windowEnd_le (t : List Char) (cs s : Nat) : windowEnd t cs s ≤ t.length :=
  min_le_right _ _

theorem windowEnd_le_add (t : List Char) (cs s : Nat) : windowEnd t cs s ≤ s + cs :=
  min_le_left _ _

theorem le_windowEnd (t : List Char) (cs s : Nat) (h : s ≤ t.length) : s ≤ windowEnd t cs s :=
  le_min (Nat.le_add_right s cs) h

theorem splitPoint_le (t : List Char) (cs s : Nat) : splitPoint t cs s ≤ windowEnd t cs s := by
  unfold splitPoint
  split
  · exact bestSplit_le t s _
  · exact le_refl _

/-- The loop always makes progress: the value `start` takes after one
iteration of the while-loop is strictly larger than before. -/
theorem nextStart_gt (t : List Char) (cs s : Nat) (h : s < t.length) : s < nextStart t cs s := by
  have hw := le_windowEnd t cs s (le_of_lt h)
  unfold nextStart
  by_cases hc : splitPoint t cs s = windowEnd t cs s
  · rw [if_pos hc]; omega
  · rw [if_neg hc]
    unfold splitPoint at hc ⊢
    by_cases hlt : windowEnd t cs s < t.length
    · rw [if_pos hlt] at hc ⊢
      rcases bestSplit_cases t s (windowEnd t cs s) with heq | hgt
      · exact absurd heq hc
      · exact hgt
    · rw [if_neg hlt] at hc
      exact absurd rfl hc

/-! ### Facts about the splitting loop -/

theorem splitLoopF_of_le (f : Nat) (t : List Char) (cs s : Nat) (h : t.length ≤ s) :
    splitLoopF f t cs s = [] := by
  cases f with
  | zero => rfl
  | succ g => simp only [splitLoopF]; rw [if_neg (by omega)]

theorem splitLoopF_congr (t : List Char) (cs : Nat) :
    ∀ f f' s, t.length - s < f → t.length - s < f' →
      splitLoopF f t cs s = splitLoopF f' t cs s := by
  intro f
  induction f with
  | zero => intro f' s h _; omega
  | succ g ih =>
    intro f' s h h'
    cases f' with
    | zero => omega
    | succ g' =>
      by_cases hs : s < t.length
      · have hns := nextStart_gt t cs s hs
        simp only [splitLoopF]
        rw [if_pos hs, if_pos hs,
          ih g' (nextStart t cs s) (by omega) (by omega)]
      · simp only [splitLoopF]
        rw [if_neg hs, if_neg hs]

theorem splitLoop_eq_fuel (f : Nat) (t : List Char) (cs s : Nat) (h : t.length - s < f) :
    splitLoopF f t cs s = splitLoop t cs s := by
  unfold splitLoop
  by_cases hs : s < t.length
  · exact splitLoopF_congr t cs f (t.length + 1 - s) s h (by omega)
  · rw [splitLoopF_of_le f t cs s (by omega),
      splitLoopF_of_le (t.length + 1 - s) t cs s (by omega)]

/-- One unfolding of the while-loop at a position inside the text. -/
theorem splitLoop_step (t : List Char) (cs s : Nat) (hs : s < t.length) :
    splitLoop t cs s =
      if strip ((t.drop s).take (splitPoint t cs s - s)) = [] then
        splitLoop t cs (nextStart t cs s)
      else
        strip ((t.drop s).take (splitPoint t cs s - s)) :: splitLoop t cs (nextStart t cs s) := by
  conv_lhs => unfold splitLoop
  rw [show t.length + 1 - s = (t.length - s) + 1 from by omega]
  simp only [splitLoopF]
  rw [if_pos hs]
  have hns := nextStart_gt t cs s hs
  rw [splitLoop_eq_fuel (t.length - s) t cs (nextStart t cs s) (by omega)]

/-- Every chunk the loop emits is at most `cs` characters long, is its
own trimmed form, and is non-empty. -/
theorem splitLoopF_mem (t : List Char) (cs : Nat) :
    ∀ f s ch, ch ∈ splitLoopF f t cs s →
      ch.length ≤ cs ∧ strip ch = ch ∧ ch ≠ [] := by
  intro f
  induction f with
  | zero => intro s ch h; simp [splitLoopF] at h
  | succ g ih =>
    intro s ch h
    simp only [splitLoopF] at h
    by_cases hs : s < t.length
    · rw [if_pos hs] at h
      by_cases hc : strip ((t.drop s).take (splitPoint t cs s - s)) = []
      · rw [if_pos hc] at h
        exact ih _ ch h
      · rw [if_neg hc] at h
        rcases List.mem_cons.mp h with rfl | h
        · refine ⟨?_, strip_idem _, hc⟩
          have h1 := strip_length_le ((t.drop s).take (splitPoint t cs s - s))
          have h2 : ((t.drop s).take (splitPoint t cs s - s)).length ≤ splitPoint t cs s - s := by
            rw [List.length_take]; omega
          have h3 := splitPoint_le t cs s
          have h4 := windowEnd_le_add t cs s
          omega
        · exact ih _ ch h
    · rw [if_neg hs] at h
      simp at h

theorem splitLoop_mem (t : List Char) (cs s : Nat) (ch : List Char)
    (h : ch ∈ splitLoop t cs s) : ch.length ≤ cs ∧ strip ch = ch ∧ ch ≠ [] :=
  splitLoopF_mem t cs _ s ch h

/-- For non-empty trimmed input and positive chunk size the loop emits a
first chunk, so the result is non-empty. -/
theorem splitLoop_ne_nil (t : List Char) (cs : Nat) (hcs : 0 < cs)
    (hst : strip t = t) (hne : t ≠ []) (hlong : cs < t.length) :
    splitLoop t cs 0 ≠ [] := by
  have hlen : 0 < t.length := List.length_pos.mpr hne
  rw [splitLoop_step t cs 0 hlen]
  obtain ⟨c, r, hcr⟩ : ∃ c r, t = c :: r := by
    cases t with
    | nil => exact absurd rfl hne
    | cons c r => exact ⟨c, r, rfl⟩
  have hc : isSpace c = false := by
    rw [hcr] at hst
    exact strip_head _ c r hst
  have hsp1 : 0 < splitPoint t cs 0 := by
    unfold splitPoint
    have hwe : 0 < windowEnd t cs 0 := lt_min (by omega) hlen
    by_cases hlt : windowEnd t cs 0 < t.length
    · rw [if_pos hlt]
      rcases bestSplit_cases t 0 (windowEnd t cs 0) with heq | hgt
      · omega
      · omega
    · rw [if_neg hlt]; omega
  have hmem : c ∈ (t.drop 0).take (splitPoint t cs 0 - 0) := by
    rw [List.drop_zero, Nat.sub_zero]
    obtain ⟨n, hn⟩ : ∃ n, splitPoint t cs 0 = n + 1 := ⟨splitPoint t cs 0 - 1, by omega⟩
    rw [hn, hcr]
    simp
  have hchunk : strip ((t.drop 0).take (splitPoint t cs 0 - 0)) ≠ [] :=
    strip_ne_nil _ c hmem hc
  rw [if_neg hchunk]
  exact List.cons_ne_nil _ _

/-! ### Facts about the hard-cut reference description -/

theorem hardChunksF_congr : ∀ f f' (t : List Char) (cs : Nat),
    t.length ≤ f → t.length ≤ f' → hardChunksF f t cs = hardChunksF f' t cs := by
  intro f
  induction f with
  | zero =>
    intro f' t cs h _
    have ht : t = [] := List.length_eq_zero.mp (by omega)
    subst ht
    cases f' <;> simp [hardChunksF]
  | succ g ih =>
    intro f' t cs h h'
    by_cases ht : t = []
    · subst ht; cases f' <;> simp [hardChunksF]
    · have hlen : 0 < t.length := List.length_pos.mpr ht
      cases f' with
      | zero => omega
      | succ g' =>
        simp only [hardChunksF]
        rw [if_neg ht, if_neg ht]
        by_cases hle : t.length ≤ cs
        · rw [if_pos hle, if_pos hle]
        · rw [if_neg hle, if_neg hle,
            ih g' (t.drop (cs+1)) cs (by rw [List.length_drop]; omega)
              (by rw [List.length_drop]; omega)]

theorem hardChunks_small (t : List Char) (cs : Nat) (h1 : t ≠ []) (h2 : t.length ≤ cs) :
    hardChunks t cs = [t] := by
  unfold hardChunks
  have hlen : 0 < t.length := List.length_pos.mpr h1
  rw [show t.length = (t.length - 1) + 1 from by omega]
  simp only [hardChunksF]
  rw [if_neg h1, if_pos h2]

theorem hardChunks_step (t : List Char) (cs : Nat) (h : cs < t.length) :
    hardChunks t cs = t.take cs :: hardChunks (t.drop (cs+1)) cs := by
  unfold hardChunks
  have ht : t ≠ [] := by
    intro h'
    subst h'
    simp at h
  rw [show t.length = (t.length - 1) + 1 from by omega]
  simp only [hardChunksF]
  rw [if_neg ht, if_neg (by omega)]
  congr 1
  exact hardChunksF_congr (t.length - 1) (t.drop (cs+1)).length (t.drop (cs+1)) cs
    (by rw [List.length_drop]; omega) (le_refl _)

/-- On text with no delimiter characters and no whitespace at all, the
loop is exactly the hard cut: windows of `cs` characters, with the
character after each full window skipped. -/
theorem splitLoopF_hard (t : List Char) (cs : Nat) (hcs : 0 < cs)
    (hchars : ∀ c ∈ t, isSpace c = false ∧ c ∉ endings) :
    ∀ f s, t.length - s < f → splitLoopF f t cs s = hardChunks (t.drop s) cs := by
  intro f
  induction f with
  | zero => intro s h; omega
  | succ g ih =>
    intro s h
    by_cases hs : s < t.length
    · have hw_le_len := windowEnd_le t cs s
      have hw_le_add := windowEnd_le_add t cs s
      have hw_ge := le_windowEnd t cs s (le_of_lt hs)
      have hsp : splitPoint t cs s = windowEnd t cs s := by
        unfold splitPoint
        by_cases hlt : windowEnd t cs s < t.length
        · rw [if_pos hlt]
          exact bestSplit_clean t s _ hchars
        · rw [if_neg hlt]
      have hns : nextStart t cs s = windowEnd t cs s + 1 := by
        unfold nextStart
        rw [if_pos hsp]
      have hchunk : strip ((t.drop s).take (windowEnd t cs s - s)) =
          (t.drop s).take (windowEnd t cs s - s) :=
        strip_of_no_space _ fun c hc =>
          (hchars c (List.mem_of_mem_drop (List.mem_of_mem_take hc))).1
      have hwge1 : s + 1 ≤ windowEnd t cs s := le_min (by omega) hs
      have hne : (t.drop s).take (windowEnd t cs s - s) ≠ [] := by
        intro hnil
        rcases List.take_eq_nil_iff.mp hnil with h0 | hdrop
        · omega
        · rw [List.drop_eq_nil_iff] at hdrop; omega
      simp only [splitLoopF]
      rw [if_pos hs, hsp, hchunk, if_neg hne, hns]
      by_cases hcase : s + cs < t.length
      · have hwe : windowEnd t cs s = s + cs := min_eq_left (by omega)
        rw [hwe, show s + cs - s = cs from by omega]
        have hdroplen : cs < (t.drop s).length := by rw [List.length_drop]; omega
        rw [hardChunks_step (t.drop s) cs hdroplen,
          ih (s + cs + 1) (by omega), List.drop_drop]
        rfl
      · have hwe : windowEnd t cs s = t.length := min_eq_right (by omega)
        rw [hwe]
        have htake : (t.drop s).take (t.length - s) = t.drop s :=
          List.take_of_length_le (le_of_eq (by rw [List.length_drop]))
        rw [htake, splitLoopF_of_le g t cs (t.length + 1) (by omega)]
        have hne2 : t.drop s ≠ [] := by
          intro hd
          rw [List.drop_eq_nil_iff] at hd
          omega
        have hle2 : (t.drop s).length ≤ cs := by rw [List.length_drop]; omega
        rw [hardChunks_small (t.drop s) cs hne2 hle2]
    · rw [splitLoopF_of_le _ t cs s (by omega),
        show t.drop s = [] from List.drop_eq_nil_iff.mpr (by omega)]
      rfl

/-! ### Top-level facts about split_text -/

theorem split_text_small (text : List Char) (cs : Nat) (h : (strip text).length ≤ cs) :
    split_text text cs = [strip text] := by
  unfold split_text
  rw [if_pos h]

theorem split_text_long (text : List Char) (cs : Nat) (h : ¬ (strip text).length ≤ cs) :
    split_text text cs = splitLoop (strip text) cs 0 := by
  unfold split_text
  rw [if_neg h]

theorem split_text_chunk_le (text : List Char) (cs : Nat) :
    ∀ ch ∈ split_text text cs, ch.length ≤ cs := by
  intro ch hch
  by_cases hle : (strip text).length ≤ cs
  · rw [split_text_small text cs hle] at hch
    simp at hch
    rw [hch]
    exact hle
  · rw [split_text_long text cs hle] at hch
    exact (splitLoop_mem _ cs 0 ch hch).1

theorem split_text_hard (text : List Char) (cs : Nat) (hcs : 0 < cs)
    (hchars : ∀ c ∈ text, isSpace c = false ∧ c ∉ endings)
    (hlong : cs < text.length) :
    split_text text cs = hardChunks text cs := by
  have hst : strip text = text := strip_of_no_space text fun c hc => (hchars c hc).1
  have hlen : ¬ (strip text).length ≤ cs := by rw [hst]; omega
  rw [split_text_long text cs hlen, hst]
  unfold splitLoop
  rw [Nat.sub_zero, splitLoopF_hard text cs hcs hchars (text.length + 1) 0 (by omega),
    List.drop_zero]

theorem hardChunksF_join_le : ∀ f (t : List Char) (cs : Nat),
    ((hardChunksF f t cs).flatten).length ≤ t.length := by
  intro f
  induction f with
  | zero => intro t cs; simp [hardChunksF]
  | succ g ih =>
    intro t cs
    simp only [hardChunksF]
    by_cases ht : t = []
    · rw [if_pos ht]; simp
    · rw [if_neg ht]
      by_cases hle : t.length ≤ cs
      · rw [if_pos hle]; simp
      · rw [if_neg hle]
        simp only [List.flatten_cons, List.length_append]
        have h1 := ih (t.drop (cs+1)) cs
        rw [List.length_drop] at h1
        have h2 : (t.take cs).length = cs := by rw [List.length_take]; omega
        omega

theorem hardChunks_join_lt (t : List Char) (cs : Nat) (h : cs < t.length) :
    ((hardChunks t cs).flatten).length < t.length := by
  rw [hardChunks_step t cs h]
  simp only [List.flatten_cons, List.length_append]
  have h1 : (t.take cs).length = cs := by rw [List.length_take]; omega
  have h2 : ((hardChunks (t.drop (cs+1)) cs).flatten).length ≤ (t.drop (cs+1)).length :=
    hardChunksF_join_le (t.drop (cs+1)).length (t.drop (cs+1)) cs
  rw [List.length_drop] at h2
  omega

theorem findDelim_empty_range (t : List Char) (s : Nat) :
    ∀ ds, findDelim t s s ds = none := by
  intro ds
  induction ds with
  | nil => rfl
  | cons c cs ih =>
    rw [findDelim_cons]
    have hr : rfind t c s s = none := by
      unfold rfind
      rw [Nat.sub_self]
      rfl
    rw [hr, delimStep_none, ih]

theorem bestSplit_empty_range (t : List Char) (s : Nat) : bestSplit t s s = s := by
  unfold bestSplit
  rw [findDelim_empty_range t s endings, delimSplit_none, if_pos rfl]
  have hr : rfind t ' ' s s = none := by
    unfold rfind
    rw [Nat.sub_self]
    rfl
  rw [hr, spaceSplit_none]

/-- With chunk size zero every window is empty, every chunk strips to
nothing, and the loop discards the entire text. -/
theorem splitLoopF_zero (t : List Char) : ∀ f s, splitLoopF f t 0 s = [] := by
  intro f
  induction f with
  | zero => intro s; rfl
  | succ g ih =>
    intro s
    simp only [splitLoopF]
    by_cases hs : s < t.length
    · rw [if_pos hs]
      have hwe : windowEnd t 0 s = s := by
        unfold windowEnd
        omega
      have hsp : splitPoint t 0 s = s := by
        unfold splitPoint
        rw [hwe, if_pos hs, bestSplit_empty_range]
      have hchunk : strip ((t.drop s).take (splitPoint t 0 s - s)) = [] := by
        rw [hsp, Nat.sub_self, List.take_zero]
        rfl
      rw [if_pos hchunk]
      have hns : nextStart t 0 s = s + 1 := by
        unfold nextStart
        rw [hsp, hwe, if_pos rfl]
      rw [hns, ih (s + 1)]
    · rw [if_neg hs]

theorem latin_not_khmer (c : Char) (h : isLatinLetter c = true) : isKhmerChar c = false := by
  unfold isLatinLetter at h
  unfold isKhmerChar
  simp only [Bool.or_eq_true, Bool.and_eq_true, decide_eq_true_eq] at h
  simp only [Bool.and_eq_false_iff, decide_eq_false_iff_not, not_le]
  omega

theorem khmer_not_latin (c : Char) (h : isKhmerChar c = true) : isLatinLetter c = false := by
  unfold isKhmerChar at h
  unfold isLatinLetter
  simp only [Bool.and_eq_true, decide_eq_true_eq] at h
  simp only [Bool.or_eq_false_iff, Bool.and_eq_false_iff, decide_eq_false_iff_not, not_le]
  omega

/-! ### Claim theorems -/

/-- C1: the claim states that concatenating the chunks loses no
non-whitespace character of the input.  The code violates this: on input
"ab.cd" with chunk_size 3 the delimiter is found right at the window
edge, `best_split` equals `end`, the loop-guard `start += 1` skips the
character 'c', and the output chunks are "ab." and "d" with 'c' in no
chunk. -/
theorem C1_code_drops_char :
    split_text ['a', 'b', '.', 'c', 'd'] 3 = [['a', 'b', '.'], ['d']] ∧
    'c' ∈ (['a', 'b', '.', 'c', 'd'] : List Char) ∧
    ∀ ch ∈ split_text ['a', 'b', '.', 'c', 'd'] 3, 'c' ∉ ch := by decide

/-- C2: for positive maxSize every returned chunk has length at most
maxSize (so the claim's disjunction holds: the oversized fallback is
never even needed), and a non-empty trimmed input yields a non-empty
chunk sequence. -/
theorem C2_bounded_and_nonempty (text : List Char) (cs : Nat) (h : 0 < cs) :
    (∀ ch ∈ split_text text cs, ch.length ≤ cs) ∧
    (strip text ≠ [] → split_text text cs ≠ []) := by
  refine ⟨split_text_chunk_le text cs, ?_⟩
  intro hne
  by_cases hle : (strip text).length ≤ cs
  · rw [split_text_small text cs hle]
    simp
  · rw [split_text_long text cs hle]
    exact splitLoop_ne_nil (strip text) cs h (strip_idem text) hne (by omega)

theorem C2_witness :
    0 < 2 ∧
    ((∀ ch ∈ split_text ['a', 'b', '!', 'c', 'd'] 2, ch.length ≤ 2) ∧
     (strip ['a', 'b', '!', 'c', 'd'] ≠ [] → split_text ['a', 'b', '!', 'c', 'd'] 2 ≠ [])) :=
  ⟨by decide, C2_bounded_and_nonempty ['a', 'b', '!', 'c', 'd'] 2 (by decide)⟩

/-- C3 counterexample: chunking the empty string (or a whitespace-only
string) returns a sequence containing one zero-length chunk, not the
empty sequence the claim demands. -/
theorem C3_counterexample :
    split_text [] 100 = [[]] ∧ split_text [' ', ' '] 100 = [[]] ∧
    split_text [] 100 ≠ [] := by decide

/-- C3 amended: for input whose trimmed form is empty the result is the
one-element sequence containing the empty chunk rather than the empty
sequence; every chunk is its own trimmed form; and when the trimmed
input is non-empty (maxSize positive) every chunk is non-empty. -/
theorem C3_amended (text : List Char) (cs : Nat) :
    (strip text = [] → split_text text cs = [[]]) ∧
    (∀ ch ∈ split_text text cs, strip ch = ch) ∧
    (0 < cs → strip text ≠ [] → ∀ ch ∈ split_text text cs, ch ≠ []) := by
  refine ⟨?_, ?_, ?_⟩
  · intro h
    rw [split_text_small text cs (by rw [h]; simp), h]
  · intro ch hch
    by_cases hle : (strip text).length ≤ cs
    · rw [split_text_small text cs hle] at hch
      simp at hch
      rw [hch]
      exact strip_idem text
    · rw [split_text_long text cs hle] at hch
      exact (splitLoop_mem _ cs 0 ch hch).2.1
  · intro hcs hne ch hch
    by_cases hle : (strip text).length ≤ cs
    · rw [split_text_small text cs hle] at hch
      simp at hch
      rw [hch]
      exact hne
    · rw [split_text_long text cs hle] at hch
      exact (splitLoop_mem _ cs 0 ch hch).2.2

theorem C3_witness :
    split_text [' ', '\t'] 7 = [[]] ∧
    (∀ ch ∈ split_text ['a', '.', 'b', 'c'] 2, strip ch = ch) ∧
    (∀ ch ∈ split_text ['a', '.', 'b', 'c'] 2, ch ≠ []) :=
  ⟨(C3_amended [' ', '\t'] 7).1 (by decide),
   (C3_amended ['a', '.', 'b', 'c'] 2).2.1,
   (C3_amended ['a', '.', 'b', 'c'] 2).2.2 (by decide) (by decide)⟩

/-- C4 counterexample: a single 6-character "sentence" with no separator
at all and maxSize 3 is not emitted as one oversized chunk: it is
hard-cut (and the character at the cut position is dropped). -/
theorem C4_counterexample :
    split_text ['a', 'b', 'c', 'd', 'e', 'f'] 3 = [['a', 'b', 'c'], ['e', 'f']] ∧
    split_text ['a', 'b', 'c', 'd', 'e', 'f'] 3 ≠ [['a', 'b', 'c', 'd', 'e', 'f']] := by decide

/-- C4 amended: a single sentence longer than maxSize containing no
separator characters and no whitespace is never emitted oversized; it is
hard-cut into chunks of at most maxSize characters, and the
concatenation of the chunks is strictly shorter than the sentence (one
character is dropped at each forced cut). -/
theorem C4_amended (text : List Char) (cs : Nat) (hcs : 0 < cs)
    (hchars : ∀ c ∈ text, isSpace c = false ∧ c ∉ endings)
    (hlong : cs < text.length) :
    (∀ ch ∈ split_text text cs, ch.length ≤ cs) ∧
    ((split_text text cs).flatten).length < text.length := by
  refine ⟨split_text_chunk_le text cs, ?_⟩
  rw [split_text_hard text cs hcs hchars hlong]
  exact hardChunks_join_lt text cs hlong

theorem C4_witness :
    (∀ ch ∈ split_text ['a', 'b', 'c', 'd', 'e', 'f'] 3, ch.length ≤ 3) ∧
    ((split_text ['a', 'b', 'c', 'd', 'e', 'f'] 3).flatten).length <
      (['a', 'b', 'c', 'd', 'e', 'f'] : List Char).length :=
  C4_amended ['a', 'b', 'c', 'd', 'e', 'f'] 3 (by decide) (by decide) (by decide)

/-- C6: input whose original length is at most maxSize yields exactly
the singleton sequence of its trimmed form (trimming only shortens, so
the fits-in-one-chunk branch is taken). -/
theorem C6_short_single (text : List Char) (cs : Nat) (h : text.length ≤ cs) :
    split_text text cs = [strip text] :=
  split_text_small text cs (le_trans (strip_length_le text) h)

theorem C6_witness :
    ([' ', 'h', 'i'] : List Char).length ≤ 5 ∧
    split_text [' ', 'h', 'i'] 5 = [strip [' ', 'h', 'i']] :=
  ⟨by decide, C6_short_single [' ', 'h', 'i'] 5 (by decide)⟩

/-- C7: the chunker terminates on every input without raising: each loop
iteration strictly increases `start`, so with fuel beyond the remaining
length the fuelled loop has already reached its fixed point — the while
loop finishes within `length + 1` iterations and yields a finite
sequence on every input and chunk size. -/
theorem C7_termination (t : List Char) (cs s f : Nat) :
    (s < t.length → s < nextStart t cs s) ∧
    (t.length - s < f → splitLoopF f t cs s = splitLoop t cs s) :=
  ⟨nextStart_gt t cs s, splitLoop_eq_fuel f t cs s⟩

theorem C7_witness :
    (0 < nextStart ['a', 'b'] 1 0) ∧
    splitLoopF 5 ['a', 'b'] 1 0 = splitLoop ['a', 'b'] 1 0 :=
  ⟨(C7_termination ['a', 'b'] 1 0 5).1 (by decide),
   (C7_termination ['a', 'b'] 1 0 5).2 (by decide)⟩

/-- C8 counterexample: no chunk-size validation exists anywhere in the
code; calling the chunker with the non-positive size 0 raises nothing
and silently returns the empty sequence, discarding the input. -/
theorem C8_counterexample :
    split_text ['a', 'b'] 0 = [] := by decide

/-- C8 amended: the chunk size is a hard-coded module constant and is
never validated; a non-positive chunk size is not rejected: with chunk
size 0 the chunker still returns normally, namely the empty sequence for
every input with non-empty trimmed form. -/
theorem C8_amended (text : List Char) (h : strip text ≠ []) :
    split_text text 0 = [] := by
  have hlen : 0 < (strip text).length := List.length_pos.mpr h
  rw [split_text_long text 0 (by omega)]
  exact splitLoopF_zero (strip text) _ 0

theorem C8_witness :
    strip ['x', 'y', 'z'] ≠ [] ∧ split_text ['x', 'y', 'z'] 0 = [] :=
  ⟨by decide, C8_amended ['x', 'y', 'z'] (by decide)⟩

/-- C9: the modelled classifier returns khmer exactly when the count of
Khmer-block characters exceeds the count of Latin letters; a non-empty
string of only Khmer-block characters classifies khmer; a string of only
ASCII letters classifies other; and classify is a total function, so it
never fails. -/
theorem C9_classifier (t : List Char) :
    (classify t = .khmer ↔ t.countP isLatinLetter < t.countP isKhmerChar) ∧
    (t ≠ [] → (∀ c ∈ t, isKhmerChar c = true) → classify t = .khmer) ∧
    ((∀ c ∈ t, isLatinLetter c = true) → classify t = .other) := by
  refine ⟨?_, ?_, ?_⟩
  · unfold classify
    by_cases h : t.countP isLatinLetter < t.countP isKhmerChar
    · rw [if_pos h]
      exact iff_of_true rfl h
    · rw [if_neg h]
      exact iff_of_false (by decide) h
  · intro hne hk
    have hcount : t.countP isKhmerChar = t.length := List.countP_eq_length.mpr hk
    have hlatin : t.countP isLatinLetter = 0 := by
      rw [List.countP_eq_zero]
      intro c hc
      rw [khmer_not_latin c (hk c hc)]
      simp
    have hpos : 0 < t.length := List.length_pos.mpr hne
    unfold classify
    rw [if_pos (by omega)]
  · intro hl
    have hkh : t.countP isKhmerChar = 0 := by
      rw [List.countP_eq_zero]
      intro c hc
      rw [latin_not_khmer c (hl c hc)]
      simp
    unfold classify
    rw [if_neg (by omega)]

theorem C9_witness :
    classify ['ក', 'ខ'] = .khmer ∧ classify ['a', 'b'] = .other :=
  ⟨(C9_classifier ['ក', 'ខ']).2.1 (by decide) (by decide),
   (C9_classifier ['a', 'b']).2.2 (by decide)⟩

/-- C10: with a positive chunk size every chunk is bounded by the chunk
size even when the trimmed input is longer; delimiter-free, space-free
text is hard-cut into windows of exactly the chunk size (plus a shorter
tail) rather than ever yielding an oversized chunk; the delimiter search
accepts the last period of the window in preference to any
later-positioned delimiter of another kind, because the delimiter types
are tried in a fixed priority order with the period first; and when the
accepted period is not at the window's last position the split lands one
past it (at the last position the line-151 re-check can hand the split
to the space fallback instead). -/
theorem C10_window_and_priority (text : List Char) (cs : Nat) (hcs : 0 < cs)
    (hlong : cs < (strip text).length) :
    (∀ ch ∈ split_text text cs, ch.length ≤ cs) ∧
    ((∀ c ∈ text, isSpace c = false ∧ c ∉ endings) →
      split_text text cs = hardChunks text cs) ∧
    (∀ (u : List Char) (s e p : Nat), s < p → p < e → u.get? p = some '.' →
      (∀ j, p < j → j < e → u.get? j ≠ some '.') → findDelim u s e endings = some p) ∧
    (∀ (u : List Char) (s e p : Nat), s < p → p + 1 < e → u.get? p = some '.' →
      (∀ j, p < j → j < e → u.get? j ≠ some '.') → bestSplit u s e = p + 1) := by
  refine ⟨split_text_chunk_le text cs, ?_, ?_, ?_⟩
  · intro hchars
    have hst : strip text = text := strip_of_no_space text fun c hc => (hchars c hc).1
    exact split_text_hard text cs hcs hchars (by rw [← hst]; exact hlong)
  · exact fun u s e p h1 h2 h3 h4 => findDelim_dot u s e p h1 h2 h3 h4
  · exact fun u s e p h1 h2 h3 h4 => bestSplit_dot u s e p h1 h2 h3 h4

theorem C10_witness :
    (∀ ch ∈ split_text ['a', 'b', 'c', 'd', 'e'] 2, ch.length ≤ 2) ∧
    split_text ['a', 'b', 'c', 'd', 'e'] 2 = hardChunks ['a', 'b', 'c', 'd', 'e'] 2 ∧
    findDelim ['k', '.', 'm', ':', 'n'] 0 5 endings = some 1 ∧
    bestSplit ['k', '.', 'm', ':', 'n'] 0 5 = 2 := by
  have h := C10_window_and_priority ['a', 'b', 'c', 'd', 'e'] 2 (by decide) (by decide)
  refine ⟨h.1, h.2.1 (by decide), ?_, ?_⟩
  · exact h.2.2.1 ['k', '.', 'm', ':', 'n'] 0 5 1 (by decide) (by decide) (by decide)
      (by intro j hj1 hj2; interval_cases j <;> decide)
  · exact h.2.2.2 ['k', '.', 'm', ':', 'n'] 0 5 1 (by decide) (by decide) (by decide)
      (by intro j hj1 hj2; interval_cases j <;> decide)

end KhmerTTS
